import Mathlib

/-!
# Verification of `pygama.pargen.energy_cal`

A shallow embedding in Lean 4 of the algorithmic core of
`src/pygama/pargen/energy_cal.py` (automatic HPGe energy calibration), together
with proofs and refutations of the specification claims about it.

Modelling conventions:
* Python/numpy floats are modelled by `ℚ` wherever the control flow does not
  depend on IEEE special values; where it does (`np.inf`, `np.nan` tests in
  `hpge_fit_E_peaks`) floats are modelled by the four-constructor type `PyFloat`.
* numpy arrays are modelled by `List`s, array indexing by `List.getD`.
* Routines of the wider pygama repository that are not part of this source file
  (`pgf.poly`, `return_nans`) and external numpy services (`np.polyfit`,
  `np.polyder`, `np.isclose`) are modelled from the specification's description
  of them; each such definition carries a doc comment saying so.
* Fallible code returns `Option`/`Except`; a `raise` is an `Except.error`.
-/

namespace EnergyCal

/-- `np.abs` on a finite float, written with an explicit sign test so that it
evaluates by rewriting on concrete rationals. -/
def absQ (q : ℚ) : ℚ := if q < 0 then -q else q

/-- An IEEE-754-style scalar as the numpy code sees it: a finite rational,
`inf`, `-inf` or `nan`.  Only the operations the embedded code uses are
defined. -/
inductive PyFloat where
  | num (q : ℚ)
  | inf
  | ninf
  | nan
deriving DecidableEq

namespace PyFloat

/-- IEEE addition (finite overflow is not modelled). -/
def add : PyFloat → PyFloat → PyFloat
  | num a, num b => num (a + b)
  | nan, _ => nan
  | _, nan => nan
  | inf, ninf => nan
  | ninf, inf => nan
  | inf, _ => inf
  | _, inf => inf
  | ninf, _ => ninf
  | _, ninf => ninf

/-- IEEE negation. -/
def neg : PyFloat → PyFloat
  | num a => num (-a)
  | inf => ninf
  | ninf => inf
  | nan => nan

/-- IEEE subtraction. -/
def sub (a b : PyFloat) : PyFloat := a.add b.neg

/-- IEEE absolute value. -/
def fabs : PyFloat → PyFloat
  | num a => num (absQ a)
  | nan => nan
  | _ => inf

/-- IEEE division (signed zero is not modelled; division by zero follows the
sign of the numerator, `0/0` is `nan`). -/
def div : PyFloat → PyFloat → PyFloat
  | nan, _ => nan
  | _, nan => nan
  | num a, num b =>
      if b = 0 then (if a = 0 then nan else if 0 < a then inf else ninf)
      else num (a / b)
  | num _, inf => num 0
  | num _, ninf => num 0
  | inf, num b => if b < 0 then ninf else inf
  | ninf, num b => if b < 0 then inf else ninf
  | inf, _ => nan
  | ninf, _ => nan

/-- IEEE `<` : any comparison involving `nan` is false. -/
def lt : PyFloat → PyFloat → Bool
  | nan, _ => false
  | _, nan => false
  | num a, num b => decide (a < b)
  | num _, inf => true
  | inf, _ => false
  | ninf, ninf => false
  | ninf, _ => true
  | num _, ninf => false

/-- IEEE `==` : `nan` is not equal to anything, including itself. -/
def feq : PyFloat → PyFloat → Bool
  | nan, _ => false
  | _, nan => false
  | num a, num b => decide (a = b)
  | inf, inf => true
  | ninf, ninf => true
  | _, _ => false

/-- `np.isnan`. -/
def isNan : PyFloat → Bool
  | nan => true
  | _ => false

/-- `np.isinf` (either sign); used to formalise the spec's word "infinite". -/
def isInfinite : PyFloat → Bool
  | inf => true
  | ninf => true
  | _ => false

/-- `np.sum` over a float array. -/
def fsum (l : List PyFloat) : PyFloat := l.foldl add (num 0)

end PyFloat

/-! ## §4.6 `unbinned_staged_energy_fit` (lines 518-779): arbitration and tail drop -/

/-- The three outcomes the arbitration block can produce without raising. -/
inductive FitPick where
  | first
  | second
  | extraSimplex
deriving DecidableEq

/-- Lines 700-761 of `unbinned_staged_energy_fit`: arbitration between the two
Minuit attempts, given their validity flags (`valid1`, `valid2`), their Pearson
statistics (`cs1 = cs[0]`, `cs2 = cs2[0]`) and their summed relative parameter
uncertainties (`fe1 = frac_errors1`, `fe2 = frac_errors2`).
`.ok .extraSimplex` models the both-invalid branch (line 700, an extra
double-simplex refit); `.error ()` models `raise RuntimeError` (line 761). -/
def arbitrateAttempts (valid1 valid2 : Bool) (cs1 cs2 fe1 fe2 : ℚ) :
    Except Unit FitPick :=
  if valid1 = false ∧ valid2 = false then .ok .extraSimplex
  else if valid2 = false then .ok .first
  else if valid1 = false then .ok .second
  else if cs1 * (105 / 100) < cs2 then .ok .first
  else if cs2 * (105 / 100) < cs1 then .ok .second
  else if fe1 < fe2 then .ok .first
  else if fe1 > fe2 then .ok .second
  else .error ()

/-- Every local name that is bound (parameter, assignment, or loop target) in
the body of `unbinned_staged_energy_fit` (source lines 518-779). -/
def unbinnedStagedLocalNames : List String :=
  ["energy", "func", "gof_func", "gof_range", "fit_range", "guess",
   "guess_func", "bounds_func", "fixed_func", "guess_kwargs", "bounds_kwargs",
   "fixed_kwargs", "tol", "tail_weight", "allow_tail_drop", "bin_width",
   "debug_level", "display", "hist", "bins", "var", "bin_cs", "gof_hist",
   "gof_bins", "gof_var", "gof_bin_cs", "x0", "x1", "cs", "cs2", "c", "m", "x0_rad",
   "fit_no_tail", "fixed", "mask", "bounds", "fix", "m_fit", "valid1", "fit1",
   "m2", "m2_fit", "valid2", "fit2", "frac_errors1", "frac_errors2", "valid3",
   "fit", "p_val", "p_val_no_tail"]

/-- Every module-level name bound in `energy_cal.py` (imports, the module
logger, and the module's own functions/classes).  Python builtins are not
listed; none of the names at issue is a builtin. -/
def energyCalModuleNames : List String :=
  ["logging", "sys", "gs", "plt", "np", "scipy", "chisquare", "norm",
   "Minuit", "cost", "find_peaks_cwt", "medfilt", "pgh", "pgf", "pgu",
   "return_nans", "log", "hpge_find_E_peaks", "hpge_get_E_peaks",
   "hpge_fit_E_peak_tops", "get_hpge_E_peak_par_guess", "get_hpge_E_fixed",
   "get_hpge_E_bounds", "tail_prior", "unbinned_staged_energy_fit",
   "hpge_fit_E_peaks", "poly_wrapper", "hpge_fit_E_scale",
   "hpge_fit_E_cal_func", "hpge_E_calibration", "poly_match",
   "get_i_local_extrema", "get_i_local_maxima", "get_i_local_minima",
   "get_most_prominent_peaks", "match_peaks", "calibrate_tl208",
   "get_calibration_energies"]

/-! ## §4.7 `hpge_fit_E_peaks` (lines 782-1028): per-peak loop and validity -/

/-- What the per-peak loop records for one peak. -/
structure PeakFitOut where
  pars : List PyFloat
  errs : List PyFloat
  valid : Bool
  pVal : PyFloat
deriving DecidableEq

/-- Modelled from the spec: `return_nans(func_i)` (imported from
`pygama.pargen.utils`, not under src/) produces all-NaN parameter and error
entries of the model's arity; together with lines 1013-1015 the `except`
branch records NaN parameters, validity `False` and p-value `0`. -/
def nanFitOut (arity : ℕ) : PeakFitOut :=
  ⟨List.replicate arity .nan, List.replicate arity .nan, false, .num 0⟩

/-- The keyword arguments, in source order, of the call to
`unbinned_staged_energy_fit` inside `hpge_fit_E_peaks` (lines 880-893).
Python rejects a call expression that repeats a keyword argument at compile
time, so this call -- together with the malformed unpacking target at lines
871-879, where `csqr_i` and `func_i` are juxtaposed with no comma -- makes
the whole module fail to parse. -/
def hpgeFitCallKeywords : List String :=
  ["func", "gof_func", "fit_range", "guess_func", "bounds_func", "fixed_func",
   "tail_weight", "allow_tail_drop", "bin_width", "tail_weight", "guess_kwargs"]

/-- One iteration of the per-peak loop of `hpge_fit_E_peaks` (lines 842-1026).
The loop body cannot run as written -- its try-block does not parse, see
`hpgeFitCallKeywords` -- so to analyse the surrounding control flow the block
is modelled with those slips repaired to their evident intent, split at the
histogram step: `binStep` models the windowing and binning (lines 856-869),
whose success assigns the Python local `bins` (carried here as the
`Option (List ℚ)` state component, `none` while still unbound); `fitStep`
models the fit and validity chain (lines 870-1007).  The bare `except`
(line 1009) catches a raise from either stage and records the NaN entry for
that peak; but line 1018 then reads `bins` *outside* the `try`: if no peak
has been binned yet, the whole batch aborts with `UnboundLocalError`
(modelled as `.error ()`), and after a later peak's binning failure it
silently reuses the previous peak's `bins`.  The second component of each
output pair is `binw_1 = (bins[-1] - bins[0]) / (len(bins) - 1)` from
line 1018. -/
def hpgeLoopStep (binStep : ℕ → Except Unit (List ℚ))
    (fitStep : ℕ → List ℚ → Except Unit PeakFitOut) (arity : ℕ)
    (st : Except Unit (List (PeakFitOut × ℚ) × Option (List ℚ))) (i : ℕ) :
    Except Unit (List (PeakFitOut × ℚ) × Option (List ℚ)) :=
  match st with
  | .error e => .error e
  | .ok (acc, env) =>
    let caught :=
      match binStep i with
      | .error _ => (nanFitOut arity, env)
      | .ok bs =>
        match fitStep i bs with
        | .ok r => (r, some bs)
        | .error _ => (nanFitOut arity, some bs)
    match caught.2 with
    | none => .error ()
    | some bs =>
      .ok (acc ++ [(caught.1,
        (bs.getD (bs.length - 1) 0 - bs.getD 0 0) / ((bs.length : ℚ) - 1))],
        caught.2)

/-- The per-peak loop of `hpge_fit_E_peaks` (lines 842-1026): fold
`hpgeLoopStep` over the requested peaks, starting with no entries recorded
and the local `bins` unbound. -/
def hpge_fit_E_peaks_loop (binStep : ℕ → Except Unit (List ℚ))
    (fitStep : ℕ → List ℚ → Except Unit PeakFitOut) (arity n : ℕ) :
    Except Unit (List (PeakFitOut × ℚ)) :=
  Except.map Prod.fst
    ((List.range n).foldl (hpgeLoopStep binStep fitStep arity) (.ok ([], none)))

/-- The validity decision of `hpge_fit_E_peaks` for one peak (lines 958-1007),
written over the exact quantities the chain inspects: the full parameter list
`pars` (line 958 raises on any NaN, which the `except` turns into validity
`False`), the mask-selected parameters `parsM` and errors `errsM`, the entries
`covM` of the mask-selected covariance block (`None` entries contribute `0`),
the optimizer flag `validFit`, the reconstructed `total` event count, the
histogram sum `histSum`, the p-value `pVal` and the caller threshold
`allowed`. -/
def hpge_fit_E_peak_valid (pars parsM errsM covM : List PyFloat)
    (validFit : Bool) (total histSum pVal allowed : PyFloat) : Bool :=
  if pars.any PyFloat.isNan then false
  else if PyFloat.feq (PyFloat.fsum covM) .inf
       || PyFloat.feq (PyFloat.fsum covM) (.num 0)
       || PyFloat.isNan (PyFloat.fsum covM) then false
  else if validFit = false then false
  else if ((List.zipWith (fun e p => PyFloat.lt ((e.div p).fabs) (.num (1 / 10 ^ 7)))
            errsM parsM).any id)
       || errsM.any PyFloat.isNan then false
  else if PyFloat.lt (.num (1 / 10)) (((total.sub histSum).fabs).div histSum) then false
  else if PyFloat.lt pVal allowed || PyFloat.isNan pVal then false
  else true

/-- The invalidity conditions exactly as claim C5 states them: a flat
disjunction, with "the masked covariance sum is infinite" covering both signs
of infinity, and with no condition on the parameter values themselves. -/
def claimedInvalidC5 (parsM errsM covM : List PyFloat) (validFit : Bool)
    (total histSum pVal allowed : PyFloat) : Bool :=
  (PyFloat.isInfinite (PyFloat.fsum covM)
    || PyFloat.feq (PyFloat.fsum covM) (.num 0)
    || PyFloat.isNan (PyFloat.fsum covM))
  || !validFit
  || (((List.zipWith (fun e p => PyFloat.lt ((e.div p).fabs) (.num (1 / 10 ^ 7)))
        errsM parsM).any id)
      || errsM.any PyFloat.isNan)
  || PyFloat.lt (.num (1 / 10)) (((total.sub histSum).fabs).div histSum)
  || (PyFloat.lt pVal allowed || PyFloat.isNan pVal)

/-! ## §4.8 `hpge_fit_E_cal_func` (lines 1087-1147): inverse-fit weights -/

/-- Modelled from the spec (§3 "Calibration Polynomial" and the docstrings of
`pgf.poly`, which lives in `pygama.math`, not under src/): polynomial
evaluation with the `np.polyfit` coefficient convention, highest degree
first. -/
def poly (pars : List ℚ) (x : ℚ) : ℚ :=
  ∑ k ∈ Finset.range pars.length, pars.getD k 0 * x ^ (pars.length - 1 - k)

/-- Modelled from the spec: `np.polyder` for coefficients highest-degree-first,
i.e. the true derivative `d/dx (p₀ xᵐ⁻¹ + … + pₘ₋₁)` as a coefficient list of
length `m - 1`. -/
def polyder (p : List ℚ) : List ℚ :=
  (List.range (p.length - 1)).map fun n => ((p.length - 1 - n : ℕ) : ℚ) * p.getD n 0

/-- The weight derivation of `hpge_fit_E_cal_func` (lines 1118-1128): for
`deg = 0` the propagated energy variances `mu_vars / E_scale_pars[0]**2`
(line 1119); for `deg ≥ 1` the quantity `dmudEs * mu_vars` where
`dmudEs = Σₙ E_scale_pars[n] * mus**(len-2-n)` (lines 1125-1128). -/
def hpge_fit_E_cal_func_weights (mus mu_vars E_scale_pars : List ℚ) (deg : ℕ) :
    List ℚ :=
  if deg = 0 then
    mu_vars.map fun v => v / E_scale_pars.getD 0 0 ^ 2
  else
    let m := E_scale_pars.length
    let dmudEs := mus.map fun mu =>
      ∑ n ∈ Finset.range (m - 1), E_scale_pars.getD n 0 * mu ^ (m - 2 - n)
    List.zipWith (· * ·) dmudEs mu_vars

/-- The weights claim C6 describes: the same combination of per-point factor
and `mu_vars`, but with the factor being the true derivative `dmu/dE` of the
forward polynomial (its `np.polyder`), evaluated at each point. -/
def chainRuleWeights (mus mu_vars E_scale_pars : List ℚ) (deg : ℕ) : List ℚ :=
  if deg = 0 then
    mu_vars.map fun v => v / E_scale_pars.getD 0 0 ^ 2
  else
    List.zipWith (· * ·) (mus.map (poly (polyder E_scale_pars))) mu_vars

/-! ## `np.polyfit` and §4.2 `poly_match` (lines 1465-1610) -/

/-- Modelled from the spec (§4.2: degree ≥ 1 is a "general polynomial
least-squares fit"; `np.polyfit` is external): the least-squares fit computed
through the normal equations and Cramer's rule.  Returns `deg + 1`
coefficients, highest degree first (the internal solve uses ascending powers
and the coefficient list is reversed at the end, which permutes the unique
least-squares solution identically). -/
def polyfit (xs ys : List ℚ) (deg : ℕ) : List ℚ :=
  let V : Matrix (Fin xs.length) (Fin (deg + 1)) ℚ :=
    Matrix.of fun i j => xs.getD i 0 ^ (j : ℕ)
  let M := V.transpose * V
  let b := V.transpose.mulVec fun i => ys.getD i 0
  (List.ofFn fun j => M.cramer b j / M.det).reverse

/-- The final refit of `hpge_get_E_peaks` (line 190):
`np.polyfit(got_peak_locations, matched_energies, len(cal_pars))` — the fit
degree is the *length* of the incoming parameter list. -/
def hpge_get_E_peaks_refit (got_peak_locations matched_energies cal_pars : List ℚ) :
    List ℚ :=
  polyfit got_peak_locations matched_energies cal_pars.length

/-- All strictly-increasing index lists of length `k` drawn from `0..n-1`, in
the order `poly_match`'s increment scheme (lines 1564-1593) enumerates them:
its state starts at `[0..k-1]`, bumps the first entry that can move right and
resets the prefix, which is exactly colexicographic order. -/
def combos : ℕ → ℕ → List (List ℕ)
  | _, 0 => [[]]
  | 0, _ + 1 => []
  | n + 1, k + 1 => combos n (k + 1) ++ (combos n k).map fun c => c ++ [n]

/-- Modelled from the spec (§4.2): `np.isclose(a, b, rtol, atol)` is
`|a - b| ≤ atol + rtol * |b|`. -/
def npIsClose (rtol atol a b : ℚ) : Bool := decide (absQ (a - b) ≤ atol + rtol * absQ b)

/-- The per-candidate fit of `poly_match` (lines 1534-1549): degree `-1` is the
mean shift, degree `0` the least-squares scale through the origin, degree ≥ 1
`np.polyfit`. -/
def pmFit (deg : ℤ) (xsi ysi : List ℚ) : List ℚ :=
  if deg = -1 then [1, (ysi.sum - xsi.sum) / (ysi.length : ℚ)]
  else if deg = 0 then
    [(List.zipWith (· * ·) ysi xsi).sum / (List.zipWith (· * ·) xsi xsi).sum, 0]
  else polyfit xsi ysi deg.toNat

/-- The fitted values `polxx` on the candidate window (lines 1537, 1542, 1549). -/
def pmPolxx (deg : ℤ) (pars xsi : List ℚ) : List ℚ :=
  if deg = -1 then xsi.map fun x => x + pars.getD 1 0
  else if deg = 0 then xsi.map fun x => pars.getD 0 0 * x
  else xsi.map (poly pars)

/-- The running state of `poly_match`'s search: the current best parameters
(`pars` survives length reductions, line 1560), the best index tuples (reset
to `None` at each length reduction, lines 1605-1606), the best match count and
the best gof (`none` models the initial `np.inf`, lines 1607-1608). -/
structure PMState where
  pars : Option (List ℚ)
  bestIx : Option (List ℕ)
  bestIy : Option (List ℕ)
  nClose : ℕ
  gof : Option ℚ
deriving DecidableEq

/-- `gof_i < gof` where `gof` may be the initial `np.inf`. -/
def gofLt (g : ℚ) : Option ℚ → Bool
  | none => true
  | some g' => decide (g < g')

/-- One candidate evaluation of `poly_match` (lines 1530-1562): fit the window,
count the `np.isclose` matches, and keep the candidate if it has strictly more
matches, or equally many with strictly better gof computed over the matched
subset only. -/
def pmStep (xs ys : List ℚ) (deg : ℤ) (rtol atol : ℚ) (st : PMState)
    (cand : List ℕ × List ℕ) : PMState :=
  let xsi := cand.1.map fun i => xs.getD i 0
  let ysi := cand.2.map fun i => ys.getD i 0
  let parsI := pmFit deg xsi ysi
  let polxx := pmPolxx deg parsI xsi
  let nCloseI := (List.zipWith (npIsClose rtol atol) polxx ysi).count true
  if st.nClose ≤ nCloseI then
    let gofI := (List.zipWith
      (fun a b => if npIsClose rtol atol a b then (a - b) ^ 2 else 0) polxx ysi).sum
    if st.nClose < nCloseI ∨ (nCloseI = st.nClose ∧ gofLt gofI st.gof = true) then
      ⟨some parsI, some cand.1, some cand.2, nCloseI, some gofI⟩
    else st
  else st

/-- All candidate pairs at one overlap length, in evaluation order: the
`iytup` combination is the outer counter (lines 1579-1593), the `ixtup`
combination the inner one (lines 1564-1577). -/
def pmLevelCands (nx ny L : ℕ) : List (List ℕ × List ℕ) :=
  (combos ny L).flatMap fun iy => (combos nx L).map fun ix => (ix, iy)

/-- Run one overlap length: fold the candidate evaluations from the fresh
state (`n_close = 0`, `gof = inf`, best tuples `None`, `pars` carried over). -/
def pmRunLevel (xs ys : List ℚ) (deg : ℤ) (rtol atol : ℚ) (L : ℕ)
    (pars0 : Option (List ℚ)) : PMState :=
  (pmLevelCands xs.length ys.length L).foldl (pmStep xs ys deg rtol atol)
    ⟨pars0, none, none, 0, none⟩

/-- The outer loop of `poly_match` over decreasing overlap lengths: after a
length is exhausted, stop if every point of the window matched (line 1595) or
if the next length would drop below the minimum (line 1600); otherwise reduce
the overlap by one, keeping `pars` but resetting the rest (lines 1602-1608). -/
def pmLoop (xs ys : List ℚ) (deg : ℤ) (rtol atol : ℚ) (req : ℕ) :
    ℕ → Option (List ℚ) →
    Option (List ℚ) × Option (List ℕ) × Option (List ℕ)
  | 0, pars0 => (pars0, none, none)
  | L + 1, pars0 =>
    let st := pmRunLevel xs ys deg rtol atol (L + 1) pars0
    if st.nClose = L + 1 ∨ L < req then (st.pars, st.bestIx, st.bestIy)
    else pmLoop xs ys deg rtol atol req L st.pars

/-- `poly_match` (lines 1465-1610).  The outer `none` models the early error
returns for `deg < -1` or `len(yy) < max(2, deg+2)` (lines 1510-1518); a
successful run returns `(pars, best_ixtup, best_iytup)`, each of which is
itself optional exactly as in the source. -/
def poly_match (xs ys : List ℚ) (deg : ℤ) (rtol atol : ℚ) :
    Option (Option (List ℚ) × Option (List ℕ) × Option (List ℕ)) :=
  if deg < -1 then none
  else
    let req : ℕ := max 2 (deg + 2).toNat
    if ys.length < req then none
    else some (pmLoop xs ys deg rtol atol req (min xs.length ys.length) none)

/-- A list of indices is a contiguous window iff it equals `range'` from its
own head; this is the "contiguous index window" notion of claim C8. -/
def isWindow (l : List ℕ) : Bool := decide (l = List.range' (l.headD 0) l.length)

/-! ## §4.1 `get_i_local_extrema` (lines 1613-1672) -/

/-- The loop state of `get_i_local_extrema`: the running max/min candidate
indices, the search direction, and the committed extrema in order. -/
structure ExtremaState where
  imax : ℕ
  imin : ℕ
  findMax : Bool
  imaxes : List ℕ
  imins : List ℕ
deriving DecidableEq

/-- One iteration of the scan (lines 1651-1670): update the running argmax and
argmin, then in max-search commit the running max once the signal falls more
than `delta` below it (and seed the min search at the current index), and
symmetrically in min-search. -/
def extremaStep (data : List ℚ) (delta : ℚ) (st : ExtremaState) (i : ℕ) :
    ExtremaState :=
  let st := if data.getD st.imax 0 < data.getD i 0 then { st with imax := i } else st
  let st := if data.getD i 0 < data.getD st.imin 0 then { st with imin := i } else st
  if st.findMax then
    if data.getD i 0 < data.getD st.imax 0 - delta then
      { st with imaxes := st.imaxes ++ [st.imax], imin := i, findMax := false }
    else st
  else
    if data.getD st.imin 0 + delta < data.getD i 0 then
      { st with imins := st.imins ++ [st.imin], imax := i, findMax := true }
    else st

/-- `get_i_local_extrema(data, delta)` (lines 1613-1672): returns the committed
maxima and minima indices; a non-positive `delta` returns empty results
(line 1644). -/
def get_i_local_extrema (data : List ℚ) (delta : ℚ) : List ℕ × List ℕ :=
  if delta ≤ 0 then ([], [])
  else
    let st := (List.range data.length).foldl (extremaStep data delta)
      ⟨0, 0, true, [], []⟩
    (st.imaxes, st.imins)

/-! ## §4.5 `hpge_get_E_peaks` conflict resolution (lines 169-192) -/

/-- One surviving detection: its uncalibrated location (`got_peak_locations`),
its predicted energy (`got_peak_energies`) and the reference energy it was
assigned to (`matched_energies`).  The three source arrays stay parallel
through every deletion, so they are modelled as one list of triples. -/
structure PkEntry where
  loc : ℚ
  energy : ℚ
  matched : ℚ
deriving DecidableEq

/-- One pass of the inner `for` loop (lines 174-187): find the first adjacent
duplicate pair in the matched energies; keep whichever of the two detections
has the smaller prediction error (`np.argmin` keeps the earlier one on a tie)
and drop the other together with one copy of the duplicated reference energy.
`none` models the `IndexError` from `matched_energies[i + 1]` when the scan
reaches the last element without finding an adjacent duplicate. -/
def resolveStep : List PkEntry → Option (List PkEntry)
  | a :: b :: rest =>
    if a.matched = b.matched then
      some ((if absQ (b.energy - a.matched) < absQ (a.energy - a.matched) then b else a)
        :: rest)
    else (resolveStep (b :: rest)).map (a :: ·)
  | _ => none

/-- The `while` guard (line 173): every matched energy occurs exactly once. -/
def matchedUnique (es : List PkEntry) : Bool :=
  decide (∀ x ∈ es.map PkEntry.matched, (es.map PkEntry.matched).count x = 1)

/-- The `while` loop (lines 173-187), with a fuel bound: each successful pass
removes exactly one entry, so `es.length` passes always suffice and the bound
never binds. -/
def resolveLoopAux : ℕ → List PkEntry → Option (List PkEntry)
  | 0, es => if matchedUnique es then some es else none
  | fuel + 1, es =>
    if matchedUnique es then some es
    else
      match resolveStep es with
      | none => none
      | some es' => resolveLoopAux fuel es'

/-- The conflict-resolution loop of `hpge_get_E_peaks`: repeat single-duplicate
elimination until every reference energy is claimed at most once. -/
def resolveConflicts (es : List PkEntry) : Option (List PkEntry) :=
  resolveLoopAux es.length es

/-! ## Theorems -/

/-- C2: in `unbinned_staged_energy_fit`, when exactly one attempt is valid it
is chosen; when both are valid the attempt whose Pearson statistic is smaller
by more than 5 percent relative is chosen, otherwise the attempt with the
smaller summed relative parameter uncertainty, and a full tie raises
(`RuntimeError`) rather than picking arbitrarily.  (This is the arbitration
chain of lines 700-761; the function as shipped crashes at line 671 before
reaching it, since `m.values2` is not a Minuit attribute.) -/
theorem arbitrateAttempts_matches_claim (v1 v2 : Bool) (cs1 cs2 fe1 fe2 : ℚ) :
    (v1 = true → v2 = false →
      arbitrateAttempts v1 v2 cs1 cs2 fe1 fe2 = .ok .first) ∧
    (v1 = false → v2 = true →
      arbitrateAttempts v1 v2 cs1 cs2 fe1 fe2 = .ok .second) ∧
    (v1 = true → v2 = true →
      (cs1 * (105 / 100) < cs2 →
        arbitrateAttempts v1 v2 cs1 cs2 fe1 fe2 = .ok .first) ∧
      (¬cs1 * (105 / 100) < cs2 → cs2 * (105 / 100) < cs1 →
        arbitrateAttempts v1 v2 cs1 cs2 fe1 fe2 = .ok .second) ∧
      (¬cs1 * (105 / 100) < cs2 → ¬cs2 * (105 / 100) < cs1 → fe1 < fe2 →
        arbitrateAttempts v1 v2 cs1 cs2 fe1 fe2 = .ok .first) ∧
      (¬cs1 * (105 / 100) < cs2 → ¬cs2 * (105 / 100) < cs1 → fe2 < fe1 →
        arbitrateAttempts v1 v2 cs1 cs2 fe1 fe2 = .ok .second) ∧
      (¬cs1 * (105 / 100) < cs2 → ¬cs2 * (105 / 100) < cs1 → fe1 = fe2 →
        arbitrateAttempts v1 v2 cs1 cs2 fe1 fe2 = .error ())) := by
  refine ⟨?_, ?_, fun h1 h2 => ⟨?_, ?_, ?_, ?_, ?_⟩⟩
  · intro hv1 hv2; simp [arbitrateAttempts, hv1, hv2]
  · intro hv1 hv2; simp [arbitrateAttempts, hv1, hv2]
  · intro hA; simp [arbitrateAttempts, h1, h2, hA]
  · intro hA hB; simp [arbitrateAttempts, h1, h2, hA, hB]
  · intro hA hB hC; simp [arbitrateAttempts, h1, h2, hA, hB, hC, asymm hC]
  · intro hA hB hC; simp [arbitrateAttempts, h1, h2, hA, hB, hC, asymm hC]
  · intro hA hB hC
    simp [arbitrateAttempts, h1, h2, hA, hB, hC, lt_irrefl]

/-- Witness for C2: a concrete full tie raises. -/
theorem arbitrateAttempts_matches_claim_witness :
    arbitrateAttempts true true 1 1 1 1 = .error () :=
  ((arbitrateAttempts_matches_claim true true 1 1 1 1).2.2 rfl rfl).2.2.2.2
    (by norm_num) (by norm_num) rfl

/-- C7: the variables the tail-drop branch of `unbinned_staged_energy_fit`
reads (`chi2` at lines 764-765, `pars` and `errs` at line 766) are bound
neither in the function body nor at module level, so the branch raises
`NameError` instead of performing the claimed substitution test. -/
theorem tail_drop_names_unbound :
    "pars" ∉ unbinnedStagedLocalNames ++ energyCalModuleNames ∧
    "errs" ∉ unbinnedStagedLocalNames ++ energyCalModuleNames ∧
    "chi2" ∉ unbinnedStagedLocalNames ++ energyCalModuleNames := by
  decide

/-- C10: the refit at the end of `hpge_get_E_peaks` always returns one more
coefficient than the calibration polynomial passed in, because the degree
argument of the fit is `len(cal_pars)` rather than `len(cal_pars) - 1`. -/
theorem hpge_get_E_peaks_refit_length (locs ms cal_pars : List ℚ) :
    (hpge_get_E_peaks_refit locs ms cal_pars).length = cal_pars.length + 1 := by
  simp [hpge_get_E_peaks_refit, polyfit]

/-- C4: `hpge_fit_E_peaks` does not isolate per-peak failures.  Its try-block
cannot even be parsed: the fit call repeats the keyword `tail_weight`, a
Python compile-time error (first conjunct).  With the syntax repaired, a
failure of the very first peak's binning stage is caught by the `except` but
then aborts the whole batch at line 1018, where the still-unbound local
`bins` is read outside the `try` (second conjunct, shown for a three-peak
batch whose binning raises).  A fit-stage failure, by contrast, is isolated
exactly as the claim intends: the middle peak of three gets the NaN entry
with validity `False` and p-value `0`, and the others are fitted (third
conjunct). -/
theorem hpge_fit_E_peaks_batch_abort :
    hpgeFitCallKeywords.count "tail_weight" = 2 ∧
    (∀ (fitStep : ℕ → List ℚ → Except Unit PeakFitOut) (arity : ℕ),
      hpge_fit_E_peaks_loop (fun _ => .error ()) fitStep arity 3 = .error ()) ∧
    hpge_fit_E_peaks_loop (fun _ => .ok [0, 1])
      (fun i _ => if i = 1 then .error ()
        else .ok ⟨[.num 1], [.num 1], true, .num 1⟩) 2 3 =
      .ok [(⟨[.num 1], [.num 1], true, .num 1⟩, 1), (nanFitOut 2, 1),
        (⟨[.num 1], [.num 1], true, .num 1⟩, 1)] := by
  refine ⟨by decide, fun fitStep arity => rfl, ?_⟩
  norm_num [hpge_fit_E_peaks_loop, hpgeLoopStep, List.range_succ, nanFitOut,
    Except.map]

/-- C6 (amended): the inverse-fit weight derivation of `hpge_fit_E_cal_func`.
For degree 0 the energy variances are `mu_vars / E_scale_pars[0]**2`.  For
degree ≥ 1 the per-point factor is `Σₙ pars[n] * mus**(len-2-n)` — the forward
polynomial's coefficients paired with the derivative's exponents but *without*
the power-rule multipliers — which coincides with the true derivative `dmu/dE`
exactly when the forward polynomial is affine (two coefficients). -/
theorem hpge_fit_E_cal_func_weights_spec (mus mu_vars p : List ℚ) (deg : ℕ) :
    (deg = 0 → hpge_fit_E_cal_func_weights mus mu_vars p deg =
      mu_vars.map fun v => v / p.getD 0 0 ^ 2) ∧
    (1 ≤ deg → hpge_fit_E_cal_func_weights mus mu_vars p deg =
      List.zipWith (· * ·)
        (mus.map fun mu =>
          ∑ n ∈ Finset.range (p.length - 1), p.getD n 0 * mu ^ (p.length - 2 - n))
        mu_vars) ∧
    (1 ≤ deg → p.length = 2 → hpge_fit_E_cal_func_weights mus mu_vars p deg =
      chainRuleWeights mus mu_vars p deg) := by
  refine ⟨fun h0 => by simp [hpge_fit_E_cal_func_weights, h0], ?_, ?_⟩
  · intro h1
    have : deg ≠ 0 := by omega
    simp [hpge_fit_E_cal_func_weights, this]
  · intro h1 hlen
    have hdeg : deg ≠ 0 := by omega
    match p, hlen with
    | [a, b], _ =>
      simp only [hpge_fit_E_cal_func_weights, chainRuleWeights, hdeg, if_false,
        if_neg hdeg, polyder, poly]
      norm_num [List.range_succ, Finset.sum_range_succ]
      have hpoly : poly [a] = fun _ : ℚ => a := by
        funext mu; simp [poly]
      rw [hpoly]
      simp [List.map_const']

/-- Witness for C6's amended statement: an affine forward polynomial, where the
code's factor and the true derivative agree. -/
theorem hpge_fit_E_cal_func_weights_spec_witness :
    hpge_fit_E_cal_func_weights [3] [5] [1, 1] 1 = chainRuleWeights [3] [5] [1, 1] 1 :=
  (hpge_fit_E_cal_func_weights_spec [3] [5] [1, 1] 1).2.2 (by norm_num) (by norm_num)

/-- Counterexample for C6 as stated: for the quadratic forward polynomial
`mu = E**2` (`E_scale_pars = [1, 0, 0]`) at `mus = [2]`, `mu_vars = [1]`, the
code's weight factor is `2` while the true derivative `dmu/dE` evaluated there
is `4`: the code does not propagate through the derivative. -/
theorem hpge_fit_E_cal_func_weights_counterexample :
    hpge_fit_E_cal_func_weights [2] [1] [1, 0, 0] 1 = [2] ∧
    chainRuleWeights [2] [1] [1, 0, 0] 1 = [4] ∧
    ([2] : List ℚ) ≠ [4] := by
  refine ⟨?_, ?_, by norm_num⟩
  · norm_num [hpge_fit_E_cal_func_weights, Finset.sum_range_succ]
  · norm_num [chainRuleWeights, polyder, poly, Finset.sum_range_succ, List.range_succ]

/-- C5: the validity decision chain of `hpge_fit_E_peaks` (lines 958-1007) as
its text stands.  Transcribed literally, it marks a peak invalid exactly
when: some fitted parameter is NaN (the raise at line 958, caught by the
`except`); the masked covariance sum equals *positive* infinity, zero, or
NaN; the optimizer reported non-convergence; some free parameter's relative
uncertainty is below `1e-7` or its uncertainty is NaN; the reconstructed
event count deviates from the histogram sum by more than 10 percent of it; or
the p-value is below the caller's threshold or NaN.  Otherwise the peak is
marked valid.  The enclosing function cannot be parsed (see
`hpgeFitCallKeywords`), so this characterises the chain's text -- what a
runnable version would execute -- not an observable behavior. -/
theorem hpge_fit_E_peak_valid_iff (pars parsM errsM covM : List PyFloat)
    (validFit : Bool) (total histSum pVal allowed : PyFloat) :
    hpge_fit_E_peak_valid pars parsM errsM covM validFit total histSum pVal allowed
        = true ↔
      ¬(pars.any PyFloat.isNan = true ∨
        (PyFloat.feq (PyFloat.fsum covM) .inf = true ∨
         PyFloat.feq (PyFloat.fsum covM) (.num 0) = true ∨
         PyFloat.isNan (PyFloat.fsum covM) = true) ∨
        validFit = false ∨
        ((List.zipWith (fun e p => PyFloat.lt ((e.div p).fabs) (.num (1 / 10 ^ 7)))
            errsM parsM).any id = true ∨
         errsM.any PyFloat.isNan = true) ∨
        PyFloat.lt (.num (1 / 10)) (((total.sub histSum).fabs).div histSum) = true ∨
        (PyFloat.lt pVal allowed = true ∨ PyFloat.isNan pVal = true)) := by
  unfold hpge_fit_E_peak_valid
  split_ifs with h1 h2 h3 h4 h5 h6
  · simp only [Bool.false_eq_true, false_iff, not_not]
    exact Or.inl h1
  · simp only [Bool.false_eq_true, false_iff, not_not]
    simp only [Bool.or_eq_true] at h2
    exact Or.inr (Or.inl (or_assoc.mp h2))
  · simp only [Bool.false_eq_true, false_iff, not_not]
    exact Or.inr (Or.inr (Or.inl h3))
  · simp only [Bool.false_eq_true, false_iff, not_not]
    simp only [Bool.or_eq_true] at h4
    exact Or.inr (Or.inr (Or.inr (Or.inl h4)))
  · simp only [Bool.false_eq_true, false_iff, not_not]
    exact Or.inr (Or.inr (Or.inr (Or.inr (Or.inl h5))))
  · simp only [Bool.false_eq_true, false_iff, not_not]
    simp only [Bool.or_eq_true] at h6
    exact Or.inr (Or.inr (Or.inr (Or.inr (Or.inr h6))))
  · simp only [true_iff]
    intro h
    rcases h with h | h | h | h | h | h
    · exact h1 h
    · exact h2 (by simpa only [Bool.or_eq_true] using or_assoc.mpr h)
    · exact h3 h
    · exact h4 (by simpa only [Bool.or_eq_true] using h)
    · exact h5 h
    · exact h6 (by simpa only [Bool.or_eq_true] using h)

/-- The transcribed chain's text also deviates from the spec's description of
it: (a) a masked covariance block summing to `-inf` ("infinite") passes the
`== np.inf` test and is accepted; (b) a NaN fitted parameter is rejected by
the raise at line 958 although none of the spec's listed conditions holds
there. -/
theorem hpge_fit_E_peak_valid_text_divergences :
    (hpge_fit_E_peak_valid [.num 1] [.num 1] [.num 1] [.ninf] true
        (.num 100) (.num 100) (.num 1) (.num (1 / 20)) = true ∧
      claimedInvalidC5 [.num 1] [.num 1] [.ninf] true
        (.num 100) (.num 100) (.num 1) (.num (1 / 20)) = true) ∧
    (hpge_fit_E_peak_valid [.nan] [.nan] [.num 1] [.num 1] true
        (.num 100) (.num 100) (.num 1) (.num (1 / 20)) = false ∧
      claimedInvalidC5 [.nan] [.num 1] [.num 1] true
        (.num 100) (.num 100) (.num 1) (.num (1 / 20)) = false) := by
  refine ⟨⟨?_, ?_⟩, ⟨?_, ?_⟩⟩ <;>
    norm_num [hpge_fit_E_peak_valid, claimedInvalidC5, PyFloat.fsum, PyFloat.add,
      PyFloat.feq, PyFloat.isNan, PyFloat.isInfinite, PyFloat.div, PyFloat.fabs,
      PyFloat.sub, PyFloat.neg, PyFloat.lt, absQ]

/-- C3: after the conflict-resolution loop of `hpge_get_E_peaks` terminates,
no reference energy appears twice among the matched energies; and each
elimination step keeps, of the first two detections assigned to the same
reference energy, the one with the strictly smaller prediction error (on a
tie `np.argmin` keeps the earlier detection). -/
theorem hpge_get_E_peaks_conflict_resolution :
    (∀ es out, resolveConflicts es = some out →
      ∀ x ∈ out.map PkEntry.matched, (out.map PkEntry.matched).count x = 1) ∧
    (∀ (pre : List PkEntry) (a b : PkEntry) (rest : List PkEntry),
      List.Chain' (fun u v => u.matched ≠ v.matched) (pre ++ [a]) →
      a.matched = b.matched →
      resolveStep (pre ++ a :: b :: rest) =
        some (pre ++
          (if absQ (b.energy - a.matched) < absQ (a.energy - a.matched) then b else a)
          :: rest)) := by
  constructor
  · have key : ∀ fuel es out, resolveLoopAux fuel es = some out →
        matchedUnique out = true := by
      intro fuel
      induction fuel with
      | zero =>
        intro es out h
        unfold resolveLoopAux at h
        split at h
        · cases h
          assumption
        · cases h
      | succ fuel ih =>
        intro es out h
        unfold resolveLoopAux at h
        split at h
        · cases h
          assumption
        · cases hs : resolveStep es with
          | none => rw [hs] at h; cases h
          | some es' => rw [hs] at h; exact ih es' out h
    intro es out h
    have hu := key es.length es out h
    exact of_decide_eq_true hu
  · intro pre
    induction pre with
    | nil =>
      intro a b rest hch hab
      simp [resolveStep, hab]
    | cons u pre ih =>
      intro a b rest hch hab
      cases pre with
      | nil =>
        have hne : u.matched ≠ a.matched := by simpa using hch
        simp only [List.nil_append, List.cons_append]
        rw [resolveStep, if_neg hne]
        have := ih a b rest (List.chain'_singleton _) hab
        simp only [List.nil_append] at this
        rw [this]
        rfl
      | cons v pre' =>
        obtain ⟨hne, hrest⟩ : u.matched ≠ v.matched ∧
            List.Chain' (fun x y => x.matched ≠ y.matched) ((v :: pre') ++ [a]) := by
          simpa using hch
        simp only [List.cons_append]
        rw [resolveStep, if_neg hne]
        have := ih a b rest hrest hab
        simp only [List.cons_append] at this
        rw [this]
        rfl

/-- Witness for C3: two detections both matched to reference energy 100; the
loop keeps the one with the smaller prediction error and the surviving
assignment claims each reference energy once. -/
theorem hpge_get_E_peaks_conflict_resolution_witness :
    (∀ x ∈ ([⟨2, 11, 100⟩] : List PkEntry).map PkEntry.matched,
      (([⟨2, 11, 100⟩] : List PkEntry).map PkEntry.matched).count x = 1) ∧
    resolveStep [⟨1, 10, 100⟩, ⟨2, 11, 100⟩] = some [⟨2, 11, 100⟩] := by
  constructor
  · refine hpge_get_E_peaks_conflict_resolution.1
      [⟨1, 10, 100⟩, ⟨2, 11, 100⟩] [⟨2, 11, 100⟩] ?_
    have hdup : matchedUnique [⟨1, 10, 100⟩, ⟨2, 11, 100⟩] = false := by
      simp only [matchedUnique, decide_eq_false_iff_not]
      intro hall
      have h100 := hall 100 (by simp)
      norm_num [List.count_cons] at h100
    have hstep : resolveStep [(⟨1, 10, 100⟩ : PkEntry), ⟨2, 11, 100⟩] =
        some [⟨2, 11, 100⟩] := by
      rw [resolveStep]
      norm_num [absQ]
    have huniq : matchedUnique [(⟨2, 11, 100⟩ : PkEntry)] = true := by
      simp only [matchedUnique, decide_eq_true_eq]
      intro x hx
      simp only [List.map, List.mem_singleton] at hx
      subst hx
      norm_num [List.count_cons]
    simp [resolveConflicts, resolveLoopAux, hdup, hstep, huniq]
  · have h := hpge_get_E_peaks_conflict_resolution.2 [] ⟨1, 10, 100⟩ ⟨2, 11, 100⟩ []
      (by simp) rfl
    simp only [List.nil_append] at h
    rw [h]
    norm_num [absQ]

/-- Phase A of the single-hump scan: while the signal is weakly rising, no
extremum is committed and the running max index stays inside the processed
prefix. -/
theorem extrema_phaseA (data : List ℚ) (delta : ℚ) (p : ℕ)
    (hδ : 0 < delta)
    (hup : ∀ i j, i ≤ j → j ≤ p → data.getD i 0 ≤ data.getD j 0) :
    ∀ k, k ≤ p → ∃ m im,
      (List.range' 0 k).foldl (extremaStep data delta) ⟨0, 0, true, [], []⟩ =
        ⟨m, im, true, [], []⟩ ∧ m ≤ k - 1 := by
  intro k
  induction k with
  | zero => exact fun _ => ⟨0, 0, rfl, Nat.le_refl 0⟩
  | succ k ih =>
    intro hk
    obtain ⟨m, im, hst, hm⟩ := ih (Nat.le_of_succ_le hk)
    have hrange : List.range' 0 (k + 1) = List.range' 0 k ++ [k] := by
      simpa using @List.range'_concat 1 0 k
    rw [hrange, List.foldl_append, hst]
    simp only [List.foldl_cons, List.foldl_nil]
    have hmk : m ≤ k := le_trans hm (Nat.sub_le k 1)
    have hdmk : data.getD m 0 ≤ data.getD k 0 := hup m k hmk (by omega)
    simp only [extremaStep]
    split_ifs with h1 h2 h3 h4 h5 h6 <;>
      first
        | exact ⟨k, im, rfl, by omega⟩
        | exact ⟨m, im, rfl, by omega⟩
        | exact ⟨k, k, rfl, by omega⟩
        | exact ⟨m, k, rfl, by omega⟩
        | (exfalso; linarith)
        | (exfalso; simp_all)

/-- Phase B of the single-hump scan: from the peak up to (but excluding) the
first index that falls more than `delta` below it, the running max is pinned
at the peak and nothing is committed. -/
theorem extrema_phaseB (data : List ℚ) (delta : ℚ) (p i0 : ℕ)
    (hδ : 0 < delta)
    (hup : ∀ i j, i ≤ j → j ≤ p → data.getD i 0 ≤ data.getD j 0)
    (hpeak : ∀ i, i < data.length → i ≠ p → data.getD i 0 < data.getD p 0)
    (hp : p < data.length) (hi0 : i0 < data.length)
    (hmin : ∀ j, p < j → j < i0 → ¬(data.getD j 0 < data.getD p 0 - delta)) :
    ∀ k, p + 1 ≤ k → k ≤ i0 → ∃ im,
      (List.range' 0 k).foldl (extremaStep data delta) ⟨0, 0, true, [], []⟩ =
        ⟨p, im, true, [], []⟩ := by
  intro k
  induction k with
  | zero => intro h _; omega
  | succ k ih =>
    intro hk1 hk2
    have hrange : List.range' 0 (k + 1) = List.range' 0 k ++ [k] := by
      simpa using @List.range'_concat 1 0 k
    by_cases hkp : k = p
    · subst hkp
      obtain ⟨m, im, hst, hm⟩ := extrema_phaseA data delta k hδ hup k le_rfl
      rw [hrange, List.foldl_append, hst]
      simp only [List.foldl_cons, List.foldl_nil]
      rcases (by
        by_cases h : m = k
        · exact Or.inl h
        · exact Or.inr (hpeak m (by omega) h) :
          m = k ∨ data.getD m 0 < data.getD k 0) with rfl | hlt
      · simp only [extremaStep]
        split_ifs <;>
          first
            | exact ⟨im, rfl⟩
            | exact ⟨m, rfl⟩
            | (exfalso; linarith)
            | (exfalso; simp_all)
      · simp only [extremaStep]
        split_ifs <;>
          first
            | exact ⟨im, rfl⟩
            | exact ⟨k, rfl⟩
            | (exfalso; linarith)
            | (exfalso; simp_all)
    · have hk1' : p + 1 ≤ k := by omega
      obtain ⟨im, hst⟩ := ih hk1' (by omega)
      rw [hrange, List.foldl_append, hst]
      simp only [List.foldl_cons, List.foldl_nil]
      have hkn : k < data.length := by omega
      have hklt : data.getD k 0 < data.getD p 0 := hpeak k hkn hkp
      have hnc : ¬(data.getD k 0 < data.getD p 0 - delta) := hmin k (by omega) (by omega)
      simp only [extremaStep]
      split_ifs <;>
        first
          | exact ⟨im, rfl⟩
          | exact ⟨k, rfl⟩
          | (exfalso; linarith)
          | (exfalso; simp_all)

/-- Phase C of the single-hump scan: at the first index more than `delta`
below the peak, the peak is committed as the unique maximum, and on the weakly
falling remainder no minimum is ever committed. -/
theorem extrema_phaseC (data : List ℚ) (delta : ℚ) (p i0 : ℕ)
    (hδ : 0 < delta)
    (hup : ∀ i j, i ≤ j → j ≤ p → data.getD i 0 ≤ data.getD j 0)
    (hpeak : ∀ i, i < data.length → i ≠ p → data.getD i 0 < data.getD p 0)
    (hdown : ∀ i j, p ≤ i → i ≤ j → j < data.length → data.getD j 0 ≤ data.getD i 0)
    (hp : p < data.length) (hi0p : p < i0) (hi0 : i0 < data.length)
    (hmin : ∀ j, p < j → j < i0 → ¬(data.getD j 0 < data.getD p 0 - delta))
    (hcommit : data.getD i0 0 < data.getD p 0 - delta) :
    ∀ k, i0 + 1 ≤ k → k ≤ data.length → ∃ m,
      (List.range' 0 k).foldl (extremaStep data delta) ⟨0, 0, true, [], []⟩ =
        ⟨p, m, false, [p], []⟩ ∧ i0 ≤ m ∧ m < k := by
  intro k
  induction k with
  | zero => intro h _; omega
  | succ k ih =>
    intro hk1 hk2
    have hrange : List.range' 0 (k + 1) = List.range' 0 k ++ [k] := by
      simpa using @List.range'_concat 1 0 k
    by_cases hki : k = i0
    · subst hki
      obtain ⟨im, hst⟩ := extrema_phaseB data delta p k hδ hup hpeak hp hi0 hmin
        k (by omega) le_rfl
      rw [hrange, List.foldl_append, hst]
      simp only [List.foldl_cons, List.foldl_nil]
      have hklt : data.getD k 0 < data.getD p 0 := hpeak k hi0 (by omega)
      simp only [extremaStep]
      split_ifs <;>
        first
          | exact ⟨k, rfl, by omega, by omega⟩
          | (exfalso; linarith)
          | (exfalso; simp_all)
    · have hk1' : i0 + 1 ≤ k := by omega
      obtain ⟨m, hst, hm1, hm2⟩ := ih hk1' (by omega)
      rw [hrange, List.foldl_append, hst]
      simp only [List.foldl_cons, List.foldl_nil]
      have hkn : k < data.length := by omega
      have hklt : data.getD k 0 < data.getD p 0 := hpeak k hkn (by omega)
      have hdk : data.getD k 0 ≤ data.getD m 0 := hdown m k (by omega) (by omega) hkn
      have hdkk : data.getD k 0 ≤ data.getD k 0 := le_rfl
      simp only [extremaStep]
      split_ifs <;>
        first
          | exact ⟨k, rfl, by omega, by omega⟩
          | exact ⟨m, rfl, by omega, by omega⟩
          | (exfalso; linarith)
          | (exfalso; simp_all)

/-- C9: on a single-hump signal -- weakly rising to a unique strict peak at
index `p`, weakly falling afterwards, and ending more than `delta` below the
peak (a flat floor of height `H > delta` below the peak satisfies all of
this) -- `get_i_local_extrema` returns exactly one maximum, at the peak, and
no minima. -/
theorem get_i_local_extrema_single_hump (data : List ℚ) (delta : ℚ) (p : ℕ)
    (hδ : 0 < delta)
    (hp : p < data.length)
    (hup : ∀ i j, i ≤ j → j ≤ p → data.getD i 0 ≤ data.getD j 0)
    (hdown : ∀ i j, p ≤ i → i ≤ j → j < data.length → data.getD j 0 ≤ data.getD i 0)
    (hpeak : ∀ i, i < data.length → i ≠ p → data.getD i 0 < data.getD p 0)
    (hdrop : data.getD (data.length - 1) 0 < data.getD p 0 - delta) :
    get_i_local_extrema data delta = ([p], []) := by
  have hpn : p < data.length - 1 := by
    rcases Nat.lt_or_ge p (data.length - 1) with h | h
    · exact h
    · exfalso
      have hpe : p = data.length - 1 := by omega
      rw [hpe] at hdrop
      linarith
  have hQ : ∃ i, p < i ∧ i < data.length ∧ data.getD i 0 < data.getD p 0 - delta :=
    ⟨data.length - 1, hpn, by omega, hdrop⟩
  set i0 := Nat.find hQ with hi0def
  obtain ⟨hi0p, hi0n, hi0c⟩ := Nat.find_spec hQ
  have hmin : ∀ j, p < j → j < i0 → ¬(data.getD j 0 < data.getD p 0 - delta) := by
    intro j hj1 hj2 hc
    exact Nat.find_min hQ hj2 ⟨hj1, by omega, hc⟩
  obtain ⟨m, hst, _, _⟩ := extrema_phaseC data delta p i0 hδ hup hpeak hdown hp
    hi0p hi0n hmin hi0c data.length (by omega) le_rfl
  unfold get_i_local_extrema
  rw [if_neg (by linarith), List.range_eq_range', hst]


/-- Witness for C9: the hump `[0, 2, 0]` with `delta = 1` yields exactly the
maximum index 1 and no minima. -/
theorem get_i_local_extrema_single_hump_witness :
    get_i_local_extrema [0, 2, 0] 1 = ([1], []) := by
  refine get_i_local_extrema_single_hump [0, 2, 0] 1 1 (by norm_num) (by norm_num)
    ?_ ?_ ?_ ?_
  · intro i j h1 h2
    interval_cases j <;> interval_cases i <;>
      norm_num [List.getD_cons_zero, List.getD_cons_succ]
  · intro i j h1 h2 h3
    norm_num at h3
    interval_cases j <;> interval_cases i <;>
      norm_num [List.getD_cons_zero, List.getD_cons_succ]
  · intro i h1 h2
    norm_num at h1
    interval_cases i <;> simp_all
  · norm_num [List.getD_cons_zero, List.getD_cons_succ]

/-! ## Lemmas for `poly_match` (C1, C8) -/

/-- `combos n k` is empty when fewer than `k` indices are available. -/
theorem combos_eq_nil : ∀ n k : ℕ, n < k → combos n k = [] := by
  intro n
  induction n with
  | zero =>
    intro k hk
    match k, hk with
    | k + 1, _ => rfl
  | succ n ih =>
    intro k hk
    match k, hk with
    | k + 1, hk =>
      show combos n (k + 1) ++ (combos n k).map _ = []
      rw [ih (k + 1) (by omega), ih k (by omega)]
      rfl

/-- At full overlap there is exactly one candidate: the whole index range. -/
theorem combos_self : ∀ n : ℕ, combos n n = [List.range n] := by
  intro n
  induction n with
  | zero => rfl
  | succ n ih =>
    show combos n (n + 1) ++ (combos n n).map _ = _
    rw [combos_eq_nil n (n + 1) (by omega), ih]
    simp [List.range_succ]

/-- Reading a list back out through `getD` over its index range. -/
theorem map_getD_self (xs : List ℚ) :
    (List.range xs.length).map (fun i => xs.getD i 0) = xs := by
  refine List.ext_getElem (by simp) ?_
  intro n h1 h2
  simp only [List.getElem_map, List.getElem_range]
  exact xs.getD_eq_getElem 0 h2

/-- A reflexive pointwise test over zipped identical lists passes everywhere. -/
theorem count_true_zipWith_self (f : ℚ → ℚ → Bool) :
    ∀ l : List ℚ, (∀ a ∈ l, f a a = true) →
      (List.zipWith f l l).count true = l.length := by
  intro l
  induction l with
  | nil => intro _; rfl
  | cons x xs ih =>
    intro h
    simp only [List.zipWith_cons_cons, List.count_cons,
      ih fun a ha => h a (List.mem_cons_of_mem _ ha), List.length_cons,
      h x (List.mem_cons_self x xs)]
    simp

/-- `np.isclose` is reflexive for nonnegative tolerances. -/
theorem npIsClose_self (rtol atol a : ℚ) (hr : 0 ≤ rtol) (ha : 0 ≤ atol) :
    npIsClose rtol atol a a = true := by
  have habs : 0 ≤ absQ a := by unfold absQ; split <;> linarith
  have h0 : absQ 0 = 0 := by norm_num [absQ]
  simp only [npIsClose, sub_self, h0, decide_eq_true_eq]
  nlinarith

theorem sum_map_add_const (c : ℚ) : ∀ xs : List ℚ,
    (xs.map fun x => x + c).sum = xs.sum + xs.length * c := by
  intro xs
  induction xs with
  | nil => simp
  | cons x xs ih => simp [ih]; ring

theorem sum_zip_scale (s : ℚ) : ∀ xs : List ℚ,
    (List.zipWith (· * ·) (xs.map fun x => s * x) xs).sum =
      s * (List.zipWith (· * ·) xs xs).sum := by
  intro xs
  induction xs with
  | nil => simp
  | cons x xs ih => simp [ih]; ring

theorem zip_self_sum_nonneg : ∀ xs : List ℚ, 0 ≤ (List.zipWith (· * ·) xs xs).sum := by
  intro xs
  induction xs with
  | nil => simp
  | cons x xs ih =>
    simp only [List.zipWith_cons_cons, List.sum_cons]
    nlinarith [mul_self_nonneg x]

/-- The sum of squares over a strictly ascending window of length at least 2
is positive (at most one entry can be zero). -/
theorem zip_self_sum_pos (xs : List ℚ) (hs : xs.Sorted (· < ·))
    (h2 : 2 ≤ xs.length) : 0 < (List.zipWith (· * ·) xs xs).sum := by
  match xs, h2 with
  | x :: y :: rest, _ =>
    have hxy : x < y := (List.sorted_cons.mp hs).1 y (by simp)
    have hrest := zip_self_sum_nonneg rest
    simp only [List.zipWith_cons_cons, List.sum_cons]
    rcases eq_or_ne x 0 with rfl | hx
    · nlinarith
    · nlinarith [mul_self_nonneg y, mul_self_pos.mpr hx]

theorem poly_pair (a b x : ℚ) : poly [a, b] x = a * x + b := by
  norm_num [poly, Finset.sum_range_succ]

/-- `poly` in ascending-power form over the reversed coefficient list. -/
theorem poly_eq_sum_rev (c : List ℚ) (deg : ℕ) (hc : c.length = deg + 1) (x : ℚ) :
    poly c x = ∑ j ∈ Finset.range (deg + 1), c.reverse.getD j 0 * x ^ j := by
  rw [← Finset.sum_range_reflect (fun j => c.reverse.getD j 0 * x ^ j) (deg + 1)]
  unfold poly
  rw [hc]
  refine Finset.sum_congr rfl ?_
  intro k hk
  simp only [Finset.mem_range] at hk
  have hrl : c.reverse.length = deg + 1 := by simp [hc]
  have h2 : c.reverse.getD (deg + 1 - 1 - k) 0 = c.getD k 0 := by
    rw [List.getD_eq_getElem _ _ (by rw [hrl]; omega), List.getElem_reverse,
      List.getD_eq_getElem _ _ (by rw [hc]; omega)]
    congr 1
    omega
  rw [h2]

/-- Distinct indices of a strictly sorted list carry distinct values. -/
theorem sorted_getD_injective (xs : List ℚ) (hs : xs.Sorted (· < ·)) :
    ∀ i j, i < xs.length → j < xs.length → i ≠ j → xs.getD i 0 ≠ xs.getD j 0 := by
  have hmono := List.Sorted.get_strictMono hs
  intro i j hi hj hij
  rw [List.getD_eq_getElem _ _ hi, List.getD_eq_getElem _ _ hj]
  rcases Nat.lt_or_ge i j with h | h
  · have := hmono (show (⟨i, hi⟩ : Fin xs.length) < ⟨j, hj⟩ from h)
    exact ne_of_lt (by simpa using this)
  · have hji : j < i := by omega
    have := hmono (show (⟨j, hj⟩ : Fin xs.length) < ⟨i, hi⟩ from hji)
    exact (ne_of_lt (by simpa using this)).symm

/-- A square matrix over ℚ with nonzero determinant has injective `mulVec`. -/
theorem mulVec_injective_of_det_ne_zero {m : ℕ} (M : Matrix (Fin m) (Fin m) ℚ)
    (h : M.det ≠ 0) {u w : Fin m → ℚ} (huw : M.mulVec u = M.mulVec w) : u = w := by
  have hunit : IsUnit M.det := isUnit_iff_ne_zero.mpr h
  calc u = (M⁻¹ * M).mulVec u := by rw [Matrix.nonsing_inv_mul _ hunit, Matrix.one_mulVec]
    _ = M⁻¹.mulVec (M.mulVec u) := (Matrix.mulVec_mulVec _ _ _).symm
    _ = M⁻¹.mulVec (M.mulVec w) := by rw [huw]
    _ = (M⁻¹ * M).mulVec w := Matrix.mulVec_mulVec _ _ _
    _ = w := by rw [Matrix.nonsing_inv_mul _ hunit, Matrix.one_mulVec]

/-- With at least `deg + 1` pairwise distinct nodes the (rectangular)
Vandermonde system has trivial kernel. -/
theorem vandermonde_mulVec_eq_zero (xs : List ℚ) (deg : ℕ)
    (hn : deg + 1 ≤ xs.length)
    (hinj : ∀ i j, i < xs.length → j < xs.length → i ≠ j →
      xs.getD i 0 ≠ xs.getD j 0)
    (v : Fin (deg + 1) → ℚ)
    (hv : (Matrix.of fun (i : Fin xs.length) (j : Fin (deg + 1)) =>
      xs.getD i 0 ^ (j : ℕ)).mulVec v = 0) : v = 0 := by
  have hnodesinj : Function.Injective fun i : Fin (deg + 1) => xs.getD (i : ℕ) 0 := by
    intro i j hij
    by_contra hne
    exact hinj i j (lt_of_lt_of_le i.isLt hn) (lt_of_lt_of_le j.isLt hn)
      (fun h => hne (Fin.ext h)) hij
  have hW : (Matrix.vandermonde fun i : Fin (deg + 1) => xs.getD (i : ℕ) 0).det ≠ 0 :=
    Matrix.det_vandermonde_ne_zero_iff.mpr hnodesinj
  have hWv : (Matrix.vandermonde fun i : Fin (deg + 1) => xs.getD (i : ℕ) 0).mulVec v
      = (Matrix.vandermonde fun i : Fin (deg + 1) => xs.getD (i : ℕ) 0).mulVec 0 := by
    rw [Matrix.mulVec_zero]
    funext i
    have h4 := congrFun hv ⟨(i : ℕ), lt_of_lt_of_le i.isLt hn⟩
    simp only [Matrix.mulVec, Matrix.dotProduct, Matrix.of_apply, Pi.zero_apply,
      Matrix.vandermonde_apply] at h4 ⊢
    exact h4
  exact mulVec_injective_of_det_ne_zero _ hW hWv

/-- The Gram matrix of the Vandermonde system is nonsingular. -/
theorem gram_det_ne_zero (xs : List ℚ) (deg : ℕ)
    (hn : deg + 1 ≤ xs.length)
    (hinj : ∀ i j, i < xs.length → j < xs.length → i ≠ j →
      xs.getD i 0 ≠ xs.getD j 0) :
    ((Matrix.of fun (i : Fin xs.length) (j : Fin (deg + 1)) =>
        xs.getD i 0 ^ (j : ℕ)).transpose *
      Matrix.of fun (i : Fin xs.length) (j : Fin (deg + 1)) =>
        xs.getD i 0 ^ (j : ℕ)).det ≠ 0 := by
  set V : Matrix (Fin xs.length) (Fin (deg + 1)) ℚ :=
    Matrix.of fun i j => xs.getD i 0 ^ (j : ℕ) with hVdef
  intro hdet0
  obtain ⟨v, hv0, hveq⟩ := Matrix.exists_mulVec_eq_zero_iff.mpr hdet0
  have h1 : V.transpose.mulVec (V.mulVec v) = 0 := by
    rw [Matrix.mulVec_mulVec]; exact hveq
  have h2 : Matrix.dotProduct (V.mulVec v) (V.mulVec v) = 0 := by
    have h3 := congrArg (Matrix.dotProduct v) h1
    rw [Matrix.dotProduct_mulVec, Matrix.vecMul_transpose] at h3
    simpa using h3
  have h3 : V.mulVec v = 0 := by
    funext i
    have hsum : ∑ k, V.mulVec v k * V.mulVec v k = 0 := h2
    have := (Finset.sum_eq_zero_iff_of_nonneg
      fun k _ => mul_self_nonneg (V.mulVec v k)).mp hsum i (Finset.mem_univ i)
    exact mul_self_eq_zero.mp this
  exact hv0 (vandermonde_mulVec_eq_zero xs deg hn hinj v h3)

/-- Reassembling a list from `getD` through `ofFn`. -/
theorem ofFn_getD_eq (l : List ℚ) (m : ℕ) (hm : l.length = m) :
    (List.ofFn fun j : Fin m => l.getD j 0) = l := by
  subst hm
  rw [show (fun j : Fin l.length => l.getD (↑j) 0) =
      fun j : Fin l.length => l[(↑j : ℕ)] from
    funext fun j => l.getD_eq_getElem 0 j.isLt]
  exact List.ofFn_getElem l

/-- Least-squares recovery: data lying exactly on a polynomial with `deg + 1`
coefficients, sampled at `deg + 1` or more pairwise distinct nodes, is fitted
back to exactly those coefficients. -/
theorem polyfit_exact (xs c : List ℚ) (deg : ℕ)
    (hc : c.length = deg + 1)
    (hn : deg + 1 ≤ xs.length)
    (hinj : ∀ i j, i < xs.length → j < xs.length → i ≠ j →
      xs.getD i 0 ≠ xs.getD j 0) :
    polyfit xs (xs.map (poly c)) deg = c := by
  unfold polyfit
  set V : Matrix (Fin xs.length) (Fin (deg + 1)) ℚ :=
    Matrix.of fun i j => xs.getD i 0 ^ (j : ℕ) with hVdef
  set cv : Fin (deg + 1) → ℚ := fun j => c.reverse.getD j 0 with hcvdef
  have hy : (fun i : Fin xs.length => (xs.map (poly c)).getD i 0) = V.mulVec cv := by
    funext i
    have hi : (i : ℕ) < xs.length := i.isLt
    have h1 : (xs.map (poly c)).getD i 0 = poly c (xs.getD i 0) := by
      rw [List.getD_eq_getElem _ _ (by simp only [List.length_map]; exact hi),
        List.getElem_map, List.getD_eq_getElem _ _ hi]
    rw [h1, poly_eq_sum_rev c deg hc]
    show _ = Matrix.dotProduct (V i) cv
    rw [Matrix.dotProduct]
    rw [← Fin.sum_univ_eq_sum_range
      (fun j => c.reverse.getD j 0 * xs.getD i 0 ^ j) (deg + 1)]
    refine Finset.sum_congr rfl ?_
    intro j _
    simp [hVdef, hcvdef, Matrix.of_apply, mul_comm]
  have hb : V.transpose.mulVec (fun i => (xs.map (poly c)).getD i 0) =
      (V.transpose * V).mulVec cv := by
    rw [hy, Matrix.mulVec_mulVec]
  have hdet : (V.transpose * V).det ≠ 0 := gram_det_ne_zero xs deg hn hinj
  have hcr : (V.transpose * V).cramer
      (V.transpose.mulVec fun i => (xs.map (poly c)).getD i 0) =
      (V.transpose * V).det • cv := by
    refine mulVec_injective_of_det_ne_zero _ hdet ?_
    rw [Matrix.mulVec_cramer, hb, Matrix.mulVec_smul]
  show (List.ofFn fun j => (V.transpose * V).cramer
      (V.transpose.mulVec fun i => (List.map (poly c) xs).getD (↑i) 0) j /
      (V.transpose * V).det).reverse = c
  rw [hcr]
  have hentries : (List.ofFn fun j : Fin (deg + 1) =>
      ((V.transpose * V).det • cv) j / (V.transpose * V).det) =
      List.ofFn fun j : Fin (deg + 1) => cv j := by
    refine congrArg List.ofFn (funext fun j => ?_)
    simp only [Pi.smul_apply, smul_eq_mul]
    exact mul_div_cancel_left₀ _ hdet
  rw [hentries, hcvdef, ofFn_getD_eq c.reverse (deg + 1) (by simp [hc]),
    List.reverse_reverse]

/-- A perfect candidate at the identity alignment: evaluating it from the
fresh level state records a full match. -/
theorem pmStep_perfect (xs ys : List ℚ) (deg : ℤ) (rtol atol : ℚ)
    (pars0 : Option (List ℚ))
    (hlen : ys.length = xs.length) (h1 : 1 ≤ xs.length)
    (hpol : pmPolxx deg (pmFit deg xs ys) xs = ys)
    (hclose : ∀ a ∈ ys, npIsClose rtol atol a a = true) :
    pmStep xs ys deg rtol atol ⟨pars0, none, none, 0, none⟩
      (List.range xs.length, List.range xs.length) =
      ⟨some (pmFit deg xs ys), some (List.range xs.length),
       some (List.range xs.length), xs.length,
       some ((List.zipWith
         (fun a b => if npIsClose rtol atol a b then (a - b) ^ 2 else 0) ys ys).sum)⟩ := by
  have hxsi : (List.range xs.length).map (fun i => xs.getD i 0) = xs := map_getD_self xs
  have hysi : (List.range xs.length).map (fun i => ys.getD i 0) = ys := by
    rw [← hlen]; exact map_getD_self ys
  have hcount := count_true_zipWith_self (npIsClose rtol atol) ys hclose
  unfold pmStep
  simp only [hxsi, hysi, hpol, hcount, hlen]
  rw [if_pos (Nat.zero_le _), if_pos (Or.inl (by omega))]

/-- At full overlap the level consists of the single identity alignment; if it
matches everywhere the level ends in a perfect best state. -/
theorem pmRunLevel_full (xs ys : List ℚ) (deg : ℤ) (rtol atol : ℚ)
    (pars0 : Option (List ℚ))
    (hlen : ys.length = xs.length) (h1 : 1 ≤ xs.length)
    (hpol : pmPolxx deg (pmFit deg xs ys) xs = ys)
    (hclose : ∀ a ∈ ys, npIsClose rtol atol a a = true) :
    pmRunLevel xs ys deg rtol atol xs.length pars0 =
      ⟨some (pmFit deg xs ys), some (List.range xs.length),
       some (List.range xs.length), xs.length,
       some ((List.zipWith
         (fun a b => if npIsClose rtol atol a b then (a - b) ^ 2 else 0) ys ys).sum)⟩ := by
  unfold pmRunLevel pmLevelCands
  rw [hlen]
  simp only [combos_self, List.flatMap_cons, List.flatMap_nil, List.map_cons,
    List.map_nil, List.append_nil, List.foldl_cons, List.foldl_nil]
  exact pmStep_perfect xs ys deg rtol atol pars0 hlen h1 hpol hclose

/-- C1: `poly_match` applied to an ascending sequence `xx` and the exact
polynomial image `f(xx)` -- `f` of the special form the degree selects
(`x + shift` for `deg = -1`, `scale * x` for `deg = 0`, a `deg+1`-coefficient
polynomial for `deg ≥ 1`) -- recovers `f`'s coefficients exactly and matches
100 percent of the points: both returned index tuples are the full index
range of `xx`. -/
theorem poly_match_recovers (xs c : List ℚ) (deg : ℤ) (rtol atol : ℚ)
    (hdeg : -1 ≤ deg) (hr : 0 ≤ rtol) (ha : 0 ≤ atol)
    (hsorted : xs.Sorted (· < ·))
    (hlen : max 2 (deg + 2).toNat ≤ xs.length)
    (hshift : deg = -1 → ∃ sh, c = [1, sh])
    (hscale : deg = 0 → ∃ s, c = [s, 0])
    (hpolydeg : 1 ≤ deg → (c.length : ℤ) = deg + 1) :
    poly_match xs (xs.map (poly c)) deg rtol atol =
      some (some c, some (List.range xs.length), some (List.range xs.length)) := by
  have hxslen : 2 ≤ xs.length := le_trans (le_max_left _ _) hlen
  have hfit : pmFit deg xs (xs.map (poly c)) = c ∧
      pmPolxx deg c xs = xs.map (poly c) := by
    rcases lt_trichotomy deg 0 with hneg | hzero | hpos
    · have hdm1 : deg = -1 := by omega
      obtain ⟨sh, rfl⟩ := hshift hdm1
      have hpoly1 : poly [1, sh] = fun x => x + sh := by
        funext x; rw [poly_pair]; ring
      subst hdm1
      constructor
      · simp only [pmFit, eq_self_iff_true, if_true, hpoly1, sum_map_add_const,
          List.length_map]
        have hne : (xs.length : ℚ) ≠ 0 := Nat.cast_ne_zero.mpr (by omega)
        congr 1
        · field_simp
      · simp only [pmPolxx, eq_self_iff_true, if_true, hpoly1]
        norm_num
    · obtain ⟨s, rfl⟩ := hscale hzero
      have hpoly0 : poly [s, 0] = fun x => s * x := by
        funext x; rw [poly_pair]; ring
      subst hzero
      have hT : (List.zipWith (· * ·) xs xs).sum ≠ 0 :=
        (zip_self_sum_pos xs hsorted hxslen).ne'
      constructor
      · simp only [pmFit, if_neg (by omega : (0 : ℤ) ≠ -1), eq_self_iff_true,
          if_true, hpoly0, sum_zip_scale]
        rw [mul_div_assoc, div_self hT, mul_one]
      · simp only [pmPolxx, if_neg (by omega : (0 : ℤ) ≠ -1), eq_self_iff_true,
          if_true, hpoly0]
        norm_num
    · have hd1 : deg ≠ -1 := by omega
      have hd0 : deg ≠ 0 := by omega
      have hclen : (c.length : ℤ) = deg + 1 := hpolydeg (by omega)
      have hcnat : c.length = deg.toNat + 1 := by omega
      have hn : deg.toNat + 1 ≤ xs.length := by
        have h2 : (deg + 2).toNat = deg.toNat + 2 := by omega
        have := le_trans (le_max_right 2 (deg + 2).toNat) hlen
        omega
      constructor
      · simp only [pmFit, if_neg hd1, if_neg hd0]
        exact polyfit_exact xs c deg.toNat hcnat hn (sorted_getD_injective xs hsorted)
      · simp only [pmPolxx, if_neg hd1, if_neg hd0]
  have hys_len : (xs.map (poly c)).length = xs.length := List.length_map xs _
  have hclose : ∀ a ∈ xs.map (poly c), npIsClose rtol atol a a = true :=
    fun a _ => npIsClose_self rtol atol a hr ha
  have hrun := pmRunLevel_full xs (xs.map (poly c)) deg rtol atol none hys_len
    (by omega) (by rw [hfit.1]; exact hfit.2) hclose
  unfold poly_match
  rw [if_neg (by omega : ¬deg < -1)]
  simp only [hys_len, min_self]
  rw [if_neg (by omega : ¬xs.length < max 2 (deg + 2).toNat)]
  obtain ⟨m, hm⟩ : ∃ m, xs.length = m + 1 := ⟨xs.length - 1, by omega⟩
  rw [hm] at hrun ⊢
  rw [pmLoop, hrun]
  rw [if_pos (Or.inl rfl)]
  rw [hfit.1]

/-- Witness for C1: a shift fit (`deg = -1`) on `[0, 1]` recovers the shift 1
and matches both points. -/
theorem poly_match_recovers_witness :
    poly_match [0, 1] ([0, 1].map (poly [1, 1])) (-1) 0 0 =
      some (some [1, 1], some (List.range 2), some (List.range 2)) := by
  have h := poly_match_recovers [0, 1] [1, 1] (-1) 0 0 (by norm_num) le_rfl le_rfl
    (by norm_num [List.sorted_cons]) (by norm_num)
    (fun _ => ⟨1, rfl⟩) (fun hc => absurd hc (by norm_num))
    (fun hc => absurd hc (by norm_num))
  simpa using h

/-- Membership in `combos n k`: exactly the strictly increasing index lists of
length `k` with entries below `n`. -/
theorem combos_mem_iff : ∀ (n k : ℕ) (l : List ℕ),
    l ∈ combos n k ↔ l.length = k ∧ l.Sorted (· < ·) ∧ ∀ x ∈ l, x < n := by
  intro n
  induction n with
  | zero =>
    intro k l
    match k with
    | 0 =>
      constructor
      · intro h
        simp only [combos, List.mem_singleton] at h
        subst h
        simp
      · rintro ⟨h1, -, -⟩
        simp [combos, List.length_eq_zero.mp h1]
    | k + 1 =>
      constructor
      · intro h
        simp [combos] at h
      · rintro ⟨h1, -, h3⟩
        exfalso
        match l, h1 with
        | x :: _, _ => exact absurd (h3 x (by simp)) (by omega)
  | succ n ih =>
    intro k l
    match k with
    | 0 =>
      constructor
      · intro h
        simp only [combos, List.mem_singleton] at h
        subst h
        simp
      · rintro ⟨h1, -, -⟩
        simp [combos, List.length_eq_zero.mp h1]
    | k + 1 =>
      show l ∈ combos n (k + 1) ++ (combos n k).map (fun c => c ++ [n]) ↔ _
      rw [List.mem_append]
      constructor
      · rintro (h | h)
        · obtain ⟨h1, h2, h3⟩ := (ih (k + 1) l).mp h
          exact ⟨h1, h2, fun x hx => lt_trans (h3 x hx) (by omega)⟩
        · obtain ⟨cc, hcc, rfl⟩ := List.mem_map.mp h
          obtain ⟨h1, h2, h3⟩ := (ih k cc).mp hcc
          refine ⟨by simp [h1], ?_, ?_⟩
          · refine List.pairwise_append.mpr ⟨h2, List.sorted_singleton n, ?_⟩
            intro a ha b hb
            rw [List.mem_singleton] at hb
            subst hb
            exact h3 a ha
          · intro x hx
            rcases List.mem_append.mp hx with hx | hx
            · exact lt_trans (h3 x hx) (by omega)
            · rw [List.mem_singleton] at hx
              omega
      · rintro ⟨h1, h2, h3⟩
        rcases List.eq_nil_or_concat l with rfl | ⟨ys, y, rfl⟩
        · simp at h1
        · simp only [List.concat_eq_append] at h1 h2 h3 ⊢
          obtain ⟨hys, -, hbnd⟩ := List.pairwise_append.mp h2
          have hylen : ys.length = k := by
            simp only [List.length_append, List.length_singleton] at h1
            omega
          by_cases hy : y = n
          · right
            refine List.mem_map.mpr ⟨ys, (ih k ys).mpr ⟨hylen, hys, ?_⟩, by rw [hy]⟩
            intro x hx
            have := hbnd x hx y (List.mem_singleton_self y)
            omega
          · left
            refine (ih (k + 1) (ys ++ [y])).mpr ⟨h1, h2, ?_⟩
            have hyn : y < n := by
              have := h3 y (by simp)
              omega
            intro x hx
            rcases List.mem_append.mp hx with hx | hx
            · exact lt_trans (hbnd x hx y (List.mem_singleton_self y)) hyn
            · rw [List.mem_singleton] at hx
              omega

/-- C8 (amended): the candidate alignments `poly_match` evaluates at one
overlap length `L` are exactly the pairs of strictly increasing index lists of
length `L` into the two sequences -- order-preserving combinations, not
necessarily contiguous windows -- with the `iytup` counter outermost. -/
theorem poly_match_candidate_alignments (nx ny L : ℕ) (ix iy : List ℕ) :
    (ix, iy) ∈ pmLevelCands nx ny L ↔
      (ix.length = L ∧ ix.Sorted (· < ·) ∧ ∀ x ∈ ix, x < nx) ∧
      (iy.length = L ∧ iy.Sorted (· < ·) ∧ ∀ y ∈ iy, y < ny) := by
  unfold pmLevelCands
  simp only [List.mem_flatMap, List.mem_map, Prod.mk.injEq]
  constructor
  · rintro ⟨iy', hiy', ix', hix', h1, h2⟩
    subst h1
    subst h2
    exact ⟨(combos_mem_iff nx L ix').mp hix', (combos_mem_iff ny L iy').mp hiy'⟩
  · rintro ⟨hix, hiy⟩
    exact ⟨iy, (combos_mem_iff ny L iy).mpr hiy, ix,
      (combos_mem_iff nx L ix).mpr hix, rfl, rfl⟩

/-- Counterexample for C8 as stated: on this input `poly_match`'s best (and
returned) alignment is `ixtup = [0, 2]` against `iytup = [0, 1]` -- an
evaluated candidate whose `xx`-side index list is not a contiguous window. -/
theorem poly_match_noncontiguous_counterexample :
    poly_match [0, 5, 6] [100, 106, 300] (-1) 0 (1 / 2) =
      some (some [1, 100], some [0, 2], some [0, 1]) ∧
    ([0, 2], [0, 1]) ∈ pmLevelCands 3 3 2 ∧
    isWindow [0, 2] = false := by
  refine ⟨?_, ?_, ?_⟩
  · norm_num [poly_match, pmLoop, pmRunLevel, pmLevelCands, combos, pmStep, pmFit,
      pmPolxx, npIsClose, gofLt, absQ, List.count_cons]
  · norm_num [pmLevelCands, combos]
  · norm_num [isWindow, List.range']

end EnergyCal
